import Mathlib

/-!
Verification of the CLI core of the iot-reference-stm32u5 repository:
command registry, tokenizer, dispatcher and console transport abstraction,
as declared in src/Common/cli/cli_prv.h.  The repository ships only the
declarations of these operations; their bodies are modelled here from the
specification, faithful to its words.  Buffers are lists of characters,
handlers are opaque identifiers, and the observable behaviour of a dispatch
is a trace of transport events.
-/

namespace CliCore

/-- Modelled from the spec: the delimiter set of the Tokenizer, which
"splits on whitespace runs".  The implementation file is not in src. -/
def isWhitespace (c : Char) : Bool :=
  c = ' ' || c = '\t' || c = '\n' || c = '\r'

/-- The terminator character written over delimiters by the destructive
tokenizer (the C string terminator). -/
def nulChar : Char := '\x00'

/-- Modelled from the spec: the tokenizer inside FreeRTOS_CLIProcessCommand
(declared at cli_prv.h lines 106-107, body not in src).  The accumulator
holds the characters of the current token in reverse.  Whitespace runs
collapse and empty tokens are never produced. -/
def tokenizeAux : List Char → List Char → List (List Char)
  | [], cur => if cur = [] then [] else [cur.reverse]
  | c :: cs, cur =>
    if isWhitespace c then
      if cur = [] then tokenizeAux cs []
      else cur.reverse :: tokenizeAux cs []
    else
      tokenizeAux cs (c :: cur)

/-- Modelled from the spec: tokenize(buffer) -> (argc, argv); argv is the
list of tokens, argc its length. -/
def tokenize (s : List Char) : List (List Char) :=
  tokenizeAux s []

/-- Modelled from the spec: the destructive, in-place effect of the
tokenizer on the command-line buffer — every delimiter character is
overwritten with a terminator, and nothing else changes. -/
def terminateDelims (s : List Char) : List Char :=
  s.map (fun c => if isWhitespace c then nulChar else c)

/-- Reading a C string out of a buffer: the characters up to the first
terminator (the end of the buffer acts as the final terminator of the
caller-owned command-line C string). -/
def readCString (s : List Char) : List Char :=
  s.takeWhile (fun c => c != nulChar)

/-- Joining argv back into a single line with single spaces, as in the
idempotence property of the spec. -/
def joinArgv : List (List Char) → List Char
  | [] => []
  | [t] => t
  | t :: ts => t ++ ' ' :: joinArgv ts

/-- The CLI_Command_Definition_t structure of cli_prv.h (lines 83-88):
command name, help string, and the handler callback.  The callback is a C
function pointer; it is modelled as an opaque identifier. -/
structure CLI_Command_Definition_t where
  pcCommand : List Char
  pcHelpString : List Char
  pxCommandInterpreter : Nat
deriving DecidableEq

/-- Observable transport events of one dispatch: a byte write to a
transport, or a handler invocation with (transport, argc, argv) as in
pdCOMMAND_LINE_CALLBACK (cli_prv.h lines 77-79).  Transports are named by
opaque identifiers. -/
inductive CliEvent where
  | write (transport : Nat) (bytes : List Char)
  | invoke (transport : Nat) (handler : Nat) (ulArgc : Nat) (ppcArgv : List (List Char))
deriving DecidableEq

/-- Modelled from the spec: registry lookup — case-sensitive exact match on
the full first token, first registered match wins. -/
def lookup (registry : List CLI_Command_Definition_t) (name : List Char) :
    Option CLI_Command_Definition_t :=
  registry.find? (fun d => d.pcCommand == name)

/-- Modelled from the spec: the fixed "command not recognized" message,
which includes the unrecognized token for diagnosability. -/
def notRecognizedMsg (tok : List Char) : List Char :=
  "Command ".toList ++ tok ++ " not recognized.\r\n".toList

/-- Modelled from the spec: FreeRTOS_CLIProcessCommand (declared at
cli_prv.h lines 106-107, body not in src).  Tokenize; if argc = 0 return
with no writes; otherwise look the first token up and either invoke the
handler with (transport, argc, argv) or write the not-recognized message. -/
def FreeRTOS_CLIProcessCommand (registry : List CLI_Command_Definition_t)
    (transport : Nat) (pcCommandInput : List Char) : List CliEvent :=
  match tokenize pcCommandInput with
  | [] => []
  | name :: rest =>
    match lookup registry name with
    | some d =>
      [CliEvent.invoke transport d.pxCommandInterpreter
        (name :: rest).length (name :: rest)]
    | none => [CliEvent.write transport (notRecognizedMsg name)]

/-- Modelled from the spec: FreeRTOS_CLIRegisterCommand (declared at
cli_prv.h line 99, body not in src).  Appends the definition to the ordered
table and reports success, or reports AlreadyRegistered (false) leaving the
table unchanged when the name is already present. -/
def FreeRTOS_CLIRegisterCommand (registry : List CLI_Command_Definition_t)
    (d : CLI_Command_Definition_t) : List CLI_Command_Definition_t × Bool :=
  if registry.any (fun e => e.pcCommand == d.pcCommand) then (registry, false)
  else (registry ++ [d], true)

/-- Modelled from the spec: the byte-exact transport write of ConsoleIO_t
(cli_prv.h lines 55-61) — the value delivered to the console is the first
length bytes of the buffer, verbatim. -/
def consoleWrite (pvBuffer : List Char) (ulLength : Nat) : List Char :=
  pvBuffer.take ulLength

/-- Process-wide CLI state: the registry plus the identity (address) and
capacity of the single scratch buffer pcCliScratchBuffer declared at
cli_prv.h line 91. -/
structure CliState where
  registry : List CLI_Command_Definition_t
  pcCliScratchBufferAddr : Nat
  pcCliScratchBufferCap : Nat
deriving DecidableEq

/-- One external operation over the process lifetime: a registration call
or a dispatch call from some transport. -/
inductive CliOp where
  | register (d : CLI_Command_Definition_t)
  | processInput (transport : Nat) (input : List Char)
deriving DecidableEq

/-- State effect of one operation: registration updates the table, a
dispatch reads the table and touches neither the scratch buffer identity
nor its capacity. -/
def applyOp (st : CliState) (op : CliOp) : CliState :=
  match op with
  | CliOp.register d =>
    ⟨(FreeRTOS_CLIRegisterCommand st.registry d).1,
      st.pcCliScratchBufferAddr, st.pcCliScratchBufferCap⟩
  | CliOp.processInput _ _ => st

/-- Running a sequence of operations over the process lifetime. -/
def runOps (st : CliState) (ops : List CliOp) : CliState :=
  ops.foldl applyOp st

/-- Modelled from the spec: FreeRTOS_CLIGetOutputBuffer (cli_prv.h lines
111-122) returns the address of the single shared scratch buffer. -/
def FreeRTOS_CLIGetOutputBuffer (st : CliState) : Nat :=
  st.pcCliScratchBufferAddr

end CliCore

namespace CliCore

theorem tokenize_all_ws (s : List Char) (h : ∀ c ∈ s, isWhitespace c = true) :
    tokenize s = [] := by
  unfold tokenize
  induction s with
  | nil => rfl
  | cons a s ih =>
    have ha : isWhitespace a = true := h a (List.mem_cons_self a s)
    simp only [tokenizeAux, ha, if_true, if_pos rfl]
    exact ih (fun c hc => h c (List.mem_cons_of_mem a hc))

theorem tokenizeAux_sound (s : List Char) :
    ∀ cur, (∀ c ∈ cur, isWhitespace c = false) →
      ∀ t ∈ tokenizeAux s cur, t ≠ [] ∧ ∀ c ∈ t, isWhitespace c = false := by
  induction s with
  | nil =>
    intro cur hcur t ht
    by_cases h : cur = []
    · subst h
      simp [tokenizeAux] at ht
    · simp only [tokenizeAux, if_neg h, List.mem_singleton] at ht
      subst ht
      refine ⟨by simpa using h, ?_⟩
      intro c hc
      exact hcur c (List.mem_reverse.mp hc)
  | cons a s ih =>
    intro cur hcur t ht
    cases hws : isWhitespace a with
    | true =>
      by_cases h : cur = []
      · subst h
        simp only [tokenizeAux, hws, if_true, if_pos rfl] at ht
        exact ih [] (by simp) t ht
      · simp only [tokenizeAux, hws, if_true, if_neg h, List.mem_cons] at ht
        rcases ht with rfl | ht
        · refine ⟨by simpa using h, ?_⟩
          intro c hc
          exact hcur c (List.mem_reverse.mp hc)
        · exact ih [] (by simp) t ht
    | false =>
      simp only [tokenizeAux, hws, Bool.false_eq_true, if_false] at ht
      refine ih (a :: cur) ?_ t ht
      intro c hc
      rcases List.mem_cons.mp hc with rfl | hc
      · exact hws
      · exact hcur c hc

theorem tokenize_sound (s : List Char) :
    ∀ t ∈ tokenize s, t ≠ [] ∧ ∀ c ∈ t, isWhitespace c = false :=
  tokenizeAux_sound s [] (by simp)

/-- Claim C1: for every command line that is empty or consists only of
whitespace, tokenization yields argc = 0 and FreeRTOS_CLIProcessCommand
performs no transport writes and invokes no handler: its event trace is
empty. -/
theorem processCommand_blank_noop (registry : List CLI_Command_Definition_t)
    (transport : Nat) (s : List Char)
    (h : ∀ c ∈ s, isWhitespace c = true) :
    tokenize s = [] ∧ FreeRTOS_CLIProcessCommand registry transport s = [] := by
  have htok : tokenize s = [] := tokenize_all_ws s h
  refine ⟨htok, ?_⟩
  unfold FreeRTOS_CLIProcessCommand
  rw [htok]

/-- Witness for C1: the two-space input from the spec scenario, against a
nonempty registry. -/
theorem processCommand_blank_noop_witness :
    tokenize "  ".toList = [] ∧
      FreeRTOS_CLIProcessCommand [⟨"uptime".toList, [], 7⟩] 0 "  ".toList = [] :=
  processCommand_blank_noop [⟨"uptime".toList, [], 7⟩] 0 "  ".toList (by decide)

end CliCore

namespace CliCore

theorem lookup_of_mem_nodup (registry : List CLI_Command_Definition_t)
    (c : CLI_Command_Definition_t)
    (hnodup : (registry.map CLI_Command_Definition_t.pcCommand).Nodup)
    (hc : c ∈ registry) :
    lookup registry c.pcCommand = some c := by
  induction registry with
  | nil => cases hc
  | cons d registry ih =>
    rw [List.map_cons, List.nodup_cons] at hnodup
    rcases List.mem_cons.mp hc with rfl | hc
    · simp [lookup, List.find?]
    · have hd : d.pcCommand ≠ c.pcCommand := by
        intro he
        exact hnodup.1 (he ▸ List.mem_map_of_mem _ hc)
      have hbeq : (d.pcCommand == c.pcCommand) = false := by
        simpa using hd
      simp only [lookup, List.find?, hbeq]
      exact ih hnodup.2 hc

/-- Claim C2: for every registered command c in a registry of distinct
names and every command line whose first token equals c.pcCommand exactly,
FreeRTOS_CLIProcessCommand invokes the handler of c exactly once — the
event trace is precisely one invoke event — passing the transport, argc
and argv, with argv[0] = c.pcCommand. -/
theorem processCommand_invokes_handler (registry : List CLI_Command_Definition_t)
    (transport : Nat) (s : List Char) (c : CLI_Command_Definition_t)
    (rest : List (List Char))
    (hnodup : (registry.map CLI_Command_Definition_t.pcCommand).Nodup)
    (hc : c ∈ registry)
    (htok : tokenize s = c.pcCommand :: rest) :
    FreeRTOS_CLIProcessCommand registry transport s =
      [CliEvent.invoke transport c.pxCommandInterpreter
        (tokenize s).length (tokenize s)] ∧
    (tokenize s).head? = some c.pcCommand := by
  have hlook := lookup_of_mem_nodup registry c hnodup hc
  constructor
  · simp only [FreeRTOS_CLIProcessCommand, htok, hlook]
  · rw [htok]
    rfl

/-- Witness for C2: the uptime scenario from the spec. -/
theorem processCommand_invokes_handler_witness :
    FreeRTOS_CLIProcessCommand [⟨"uptime".toList, [], 7⟩] 0 "uptime".toList =
      [CliEvent.invoke 0 7 (tokenize "uptime".toList).length
        (tokenize "uptime".toList)] ∧
    (tokenize "uptime".toList).head? = some "uptime".toList :=
  processCommand_invokes_handler [⟨"uptime".toList, [], 7⟩] 0 "uptime".toList
    ⟨"uptime".toList, [], 7⟩ [] (by decide) (by decide) (by decide)

/-- Claim C3: for every non-empty command line whose first token matches no
registered name, FreeRTOS_CLIProcessCommand invokes no handler and writes
exactly one not-recognized message — the event trace is precisely one write
event — and the message contains the unrecognized first token. -/
theorem processCommand_not_recognized (registry : List CLI_Command_Definition_t)
    (transport : Nat) (s : List Char) (name : List Char)
    (rest : List (List Char))
    (htok : tokenize s = name :: rest)
    (hlook : lookup registry name = none) :
    FreeRTOS_CLIProcessCommand registry transport s =
      [CliEvent.write transport (notRecognizedMsg name)] ∧
    name <:+: notRecognizedMsg name := by
  constructor
  · simp only [FreeRTOS_CLIProcessCommand, htok, hlook]
  · exact ⟨"Command ".toList, " not recognized.\r\n".toList,
      by simp [notRecognizedMsg]⟩

/-- Witness for C3: the frobnicate scenario from the spec. -/
theorem processCommand_not_recognized_witness :
    FreeRTOS_CLIProcessCommand [⟨"uptime".toList, [], 7⟩] 0
        "frobnicate --x".toList =
      [CliEvent.write 0 (notRecognizedMsg "frobnicate".toList)] ∧
    "frobnicate".toList <:+: notRecognizedMsg "frobnicate".toList :=
  processCommand_not_recognized [⟨"uptime".toList, [], 7⟩] 0
    "frobnicate --x".toList "frobnicate".toList ["--x".toList]
    (by decide) (by decide)

end CliCore

namespace CliCore

/-- Claim C4: in a registry holding two commands registered under the same
name, lookup of that name returns the first-registered definition — first
registered match wins in registration order; lookup is a pure function of
the registry, so repeated calls agree. -/
theorem lookup_first_match_wins (pre mid post : List CLI_Command_Definition_t)
    (d1 d2 : CLI_Command_Definition_t)
    (hpre : ∀ e ∈ pre, e.pcCommand ≠ d1.pcCommand)
    (_hname : d2.pcCommand = d1.pcCommand) :
    lookup (pre ++ d1 :: mid ++ d2 :: post) d1.pcCommand = some d1 := by
  induction pre with
  | nil => simp [lookup, List.find?]
  | cons e pre ih =>
    have hbeq : (e.pcCommand == d1.pcCommand) = false := by
      simpa using hpre e (List.mem_cons_self e pre)
    simp only [List.cons_append, lookup, List.find?, hbeq]
    exact ih (fun x hx => hpre x (List.mem_cons_of_mem e hx))

/-- Witness for C4: two definitions registered under the name kill; lookup
returns the first. -/
theorem lookup_first_match_wins_witness :
    lookup [⟨"kill".toList, [], 1⟩, ⟨"kill".toList, [], 2⟩] "kill".toList =
      some ⟨"kill".toList, [], 1⟩ :=
  lookup_first_match_wins [] [] [] ⟨"kill".toList, [], 1⟩
    ⟨"kill".toList, [], 2⟩ (by simp) rfl

/-- Claim C5: FreeRTOS_CLIRegisterCommand succeeds, appending the new
definition, when the name is new; it reports AlreadyRegistered (false) when
a definition with the same name exists, and the failed registration leaves
the previously registered entries and their order unchanged. -/
theorem registerCommand_spec (registry : List CLI_Command_Definition_t)
    (d : CLI_Command_Definition_t) :
    ((∀ e ∈ registry, e.pcCommand ≠ d.pcCommand) →
      FreeRTOS_CLIRegisterCommand registry d = (registry ++ [d], true)) ∧
    ((∃ e ∈ registry, e.pcCommand = d.pcCommand) →
      FreeRTOS_CLIRegisterCommand registry d = (registry, false)) := by
  constructor
  · intro h
    have hany : registry.any (fun e => e.pcCommand == d.pcCommand) = false := by
      rw [List.any_eq_false]
      intro e he
      simpa using h e he
    simp [FreeRTOS_CLIRegisterCommand, hany]
  · rintro ⟨e, he, hname⟩
    have hany : registry.any (fun e => e.pcCommand == d.pcCommand) = true := by
      rw [List.any_eq_true]
      exact ⟨e, he, by simpa using hname⟩
    simp [FreeRTOS_CLIRegisterCommand, hany]

/-- Witness for C5: registering kill into a registry holding only ps
succeeds and appends; the same hypothesis shape is discharged concretely. -/
theorem registerCommand_spec_witness :
    FreeRTOS_CLIRegisterCommand [⟨"ps".toList, [], 1⟩] ⟨"kill".toList, [], 2⟩ =
      ([⟨"ps".toList, [], 1⟩, ⟨"kill".toList, [], 2⟩], true) :=
  (registerCommand_spec [⟨"ps".toList, [], 1⟩] ⟨"kill".toList, [], 2⟩).1
    (by decide)

/-- Claim C8: the transport write delivers exactly ulLength bytes verbatim
to the console: the delivered sequence has length ulLength and agrees
pointwise with the first ulLength bytes of the buffer, embedded terminator
characters included, with no truncation at a null terminator. -/
theorem consoleWrite_byte_exact (pvBuffer : List Char) (ulLength : Nat)
    (h : ulLength ≤ pvBuffer.length) :
    (consoleWrite pvBuffer ulLength).length = ulLength ∧
    ∀ i, i < ulLength →
      (consoleWrite pvBuffer ulLength)[i]? = pvBuffer[i]? := by
  constructor
  · simp [consoleWrite, List.length_take, Nat.min_eq_left h]
  · intro i hi
    simp [consoleWrite, List.getElem?_take_of_lt hi]

/-- Witness for C8: a buffer with an embedded terminator character is
delivered without truncation. -/
theorem consoleWrite_byte_exact_witness :
    3 ≤ (['a', nulChar, 'b', 'c'] : List Char).length ∧
    ((consoleWrite ['a', nulChar, 'b', 'c'] 3).length = 3 ∧
      ∀ i, i < 3 → (consoleWrite ['a', nulChar, 'b', 'c'] 3)[i]? =
        (['a', nulChar, 'b', 'c'] : List Char)[i]?) :=
  ⟨by decide, consoleWrite_byte_exact ['a', nulChar, 'b', 'c'] 3 (by decide)⟩

/-- Claim C9: FreeRTOS_CLIProcessCommand always succeeds from the caller
side: for every registry, transport and command-line buffer it returns
normally, and its event trace is one of — empty (blank input), exactly one
handler invocation, or exactly one diagnostic write to the transport; no
failure value escapes. -/
theorem processCommand_total (registry : List CLI_Command_Definition_t)
    (transport : Nat) (s : List Char) :
    FreeRTOS_CLIProcessCommand registry transport s = [] ∨
    (∃ h argv, FreeRTOS_CLIProcessCommand registry transport s =
      [CliEvent.invoke transport h argv.length argv]) ∨
    (∃ tok, FreeRTOS_CLIProcessCommand registry transport s =
      [CliEvent.write transport (notRecognizedMsg tok)]) := by
  cases htok : tokenize s with
  | nil =>
    refine Or.inl ?_
    simp only [FreeRTOS_CLIProcessCommand, htok]
  | cons name rest =>
    cases hlook : lookup registry name with
    | some d =>
      refine Or.inr (Or.inl ⟨d.pxCommandInterpreter, name :: rest, ?_⟩)
      simp only [FreeRTOS_CLIProcessCommand, htok, hlook]
    | none =>
      refine Or.inr (Or.inr ⟨name, ?_⟩)
      simp only [FreeRTOS_CLIProcessCommand, htok, hlook]

theorem applyOp_scratch (st : CliState) (op : CliOp) :
    (applyOp st op).pcCliScratchBufferAddr = st.pcCliScratchBufferAddr ∧
    (applyOp st op).pcCliScratchBufferCap = st.pcCliScratchBufferCap := by
  cases op <;> exact ⟨rfl, rfl⟩

/-- Claim C10: FreeRTOS_CLIGetOutputBuffer is constant over the process
lifetime: after every sequence of registration and dispatch operations,
from any transport, it returns the same address — that of the single
pcCliScratchBuffer — and the capacity of that buffer never changes. -/
theorem getOutputBuffer_constant (st : CliState) (ops : List CliOp) :
    FreeRTOS_CLIGetOutputBuffer (runOps st ops) = st.pcCliScratchBufferAddr ∧
    (runOps st ops).pcCliScratchBufferCap = st.pcCliScratchBufferCap := by
  induction ops generalizing st with
  | nil => exact ⟨rfl, rfl⟩
  | cons op ops ih =>
    have h := applyOp_scratch st op
    have h2 := ih (applyOp st op)
    unfold runOps at h2 ⊢
    rw [List.foldl_cons]
    exact ⟨h2.1.trans h.1, h2.2.trans h.2⟩

end CliCore

namespace CliCore

theorem isWhitespace_space : isWhitespace ' ' = true := by decide

theorem tokenizeAux_token (t s : List Char) :
    (∀ c ∈ t, isWhitespace c = false) →
    ∀ cur, tokenizeAux (t ++ s) cur = tokenizeAux s (t.reverse ++ cur) := by
  induction t with
  | nil =>
    intro _ cur
    simp
  | cons a t ih =>
    intro ht cur
    have ha : isWhitespace a = false := ht a (List.mem_cons_self a t)
    simp only [List.cons_append, tokenizeAux, ha, Bool.false_eq_true, if_false, List.append_eq]
    rw [ih (fun c hc => ht c (List.mem_cons_of_mem a hc)) (a :: cur)]
    rw [List.reverse_cons, List.append_assoc]
    rfl

theorem tokenizeAux_ws_cons (s cur : List Char) (hcur : cur ≠ []) :
    tokenizeAux (' ' :: s) cur = cur.reverse :: tokenizeAux s [] := by
  simp [tokenizeAux, isWhitespace_space, hcur]

theorem tokenize_join (ts : List (List Char))
    (h : ∀ t ∈ ts, t ≠ [] ∧ ∀ c ∈ t, isWhitespace c = false) :
    tokenize (joinArgv ts) = ts := by
  induction ts with
  | nil => rfl
  | cons t ts ih =>
    rcases h t (List.mem_cons_self t ts) with ⟨hne, hws⟩
    have hrev : t.reverse ≠ [] := by simpa [List.reverse_eq_nil_iff] using hne
    cases ts with
    | nil =>
      show tokenizeAux (joinArgv [t]) [] = [t]
      have hj : joinArgv [t] = t ++ [] := by simp [joinArgv]
      rw [hj, tokenizeAux_token t [] hws []]
      simp [tokenizeAux, hrev]
    | cons t2 ts2 =>
      have hj : joinArgv (t :: t2 :: ts2) = t ++ ' ' :: joinArgv (t2 :: ts2) := by
        simp [joinArgv]
      show tokenizeAux (joinArgv (t :: t2 :: ts2)) [] = t :: t2 :: ts2
      rw [hj, tokenizeAux_token t (' ' :: joinArgv (t2 :: ts2)) hws [],
        List.append_nil, tokenizeAux_ws_cons _ _ hrev, List.reverse_reverse]
      exact congrArg (t :: ·) (ih (fun x hx => h x (List.mem_cons_of_mem t hx)))

/-- Claim C7: tokenization is idempotent on its own output: joining the
argv produced by tokenize with single spaces and tokenizing again
reproduces the same argc and the same sequence of tokens. -/
theorem tokenize_idempotent (s : List Char) :
    tokenize (joinArgv (tokenize s)) = tokenize s :=
  tokenize_join (tokenize s) (tokenize_sound s)

end CliCore

namespace CliCore

theorem tokenizeAux_decomp (s : List Char) :
    ∀ cur, ∀ t ∈ tokenizeAux s cur,
      ∃ l r, cur.reverse ++ s = l ++ t ++ r ∧
        (r = [] ∨ ∃ c r2, r = c :: r2 ∧ isWhitespace c = true) := by
  induction s with
  | nil =>
    intro cur t ht
    by_cases h : cur = []
    · subst h
      simp [tokenizeAux] at ht
    · simp only [tokenizeAux, if_neg h, List.mem_singleton] at ht
      subst ht
      exact ⟨[], [], by simp, Or.inl rfl⟩
  | cons a s ih =>
    intro cur t ht
    cases hws : isWhitespace a with
    | true =>
      by_cases h : cur = []
      · subst h
        simp only [tokenizeAux, hws, if_true, if_pos rfl] at ht
        rcases ih [] t ht with ⟨l, r, hlr, hr⟩
        refine ⟨a :: l, r, ?_, hr⟩
        simp only [List.reverse_nil, List.nil_append] at hlr
        simp [hlr]
      · simp only [tokenizeAux, hws, if_true, if_neg h, List.mem_cons] at ht
        rcases ht with rfl | ht
        · exact ⟨[], a :: s, by simp, Or.inr ⟨a, s, rfl, hws⟩⟩
        · rcases ih [] t ht with ⟨l, r, hlr, hr⟩
          refine ⟨cur.reverse ++ a :: l, r, ?_, hr⟩
          simp only [List.reverse_nil, List.nil_append] at hlr
          simp [hlr, List.append_assoc]
    | false =>
      simp only [tokenizeAux, hws, Bool.false_eq_true, if_false] at ht
      rcases ih (a :: cur) t ht with ⟨l, r, hlr, hr⟩
      refine ⟨l, r, ?_, hr⟩
      rw [← hlr]
      simp [List.reverse_cons, List.append_assoc]

theorem tokenize_decomp (s : List Char) :
    ∀ t ∈ tokenize s, ∃ l r, s = l ++ t ++ r ∧
      (r = [] ∨ ∃ c r2, r = c :: r2 ∧ isWhitespace c = true) := by
  intro t ht
  rcases tokenizeAux_decomp s [] t ht with ⟨l, r, hlr, hr⟩
  exact ⟨l, r, by simpa using hlr, hr⟩

theorem takeWhile_append_exact (p : Char → Bool) (t r : List Char)
    (ht : ∀ c ∈ t, p c = true)
    (hr : r = [] ∨ ∃ c r2, r = c :: r2 ∧ p c = false) :
    (t ++ r).takeWhile p = t := by
  induction t with
  | nil =>
    rcases hr with rfl | ⟨c, r2, rfl, hc⟩
    · rfl
    · simp [List.takeWhile_cons, hc]
  | cons a t ih =>
    have ha : p a = true := ht a (List.mem_cons_self a t)
    simp only [List.cons_append, List.takeWhile_cons, ha, if_true]
    rw [ih (fun c hc => ht c (List.mem_cons_of_mem a hc))]

theorem terminateDelims_no_ws (t : List Char)
    (h : ∀ c ∈ t, isWhitespace c = false) :
    terminateDelims t = t := by
  unfold terminateDelims
  induction t with
  | nil => rfl
  | cons a t ih =>
    have ha := h a (List.mem_cons_self a t)
    simp [ha, ih (fun c hc => h c (List.mem_cons_of_mem a hc))]

/-- Claim C6: the tokenizer splits on whitespace runs — consecutive
delimiters collapse and no token is ever empty — and its destructive,
in-place effect overwrites each delimiter with a terminator, so that every
token is an infix of the original buffer, the buffer keeps its length (no
new memory), and every token can be read back as an independently
null-terminated C string at some offset of the terminated buffer. -/
theorem tokenize_destructive (s : List Char) (hnul : nulChar ∉ s) :
    (∀ t ∈ tokenize s, t ≠ [] ∧ ∀ c ∈ t, isWhitespace c = false) ∧
    (terminateDelims s).length = s.length ∧
    ∀ t ∈ tokenize s, t <:+: s ∧
      ∃ p, p ≤ s.length ∧ readCString ((terminateDelims s).drop p) = t := by
  refine ⟨tokenize_sound s, by simp [terminateDelims], ?_⟩
  intro t ht
  have hws := (tokenize_sound s t ht).2
  rcases tokenize_decomp s t ht with ⟨l, r, hlr, hr⟩
  refine ⟨⟨l, r, hlr.symm⟩, l.length, ?_, ?_⟩
  · rw [hlr]
    simp [List.length_append]
  · have hsplit : terminateDelims s =
        terminateDelims l ++ (terminateDelims t ++ terminateDelims r) := by
      rw [hlr]
      simp [terminateDelims, List.map_append]
    rw [hsplit, List.drop_left' (by simp [terminateDelims])]
    rw [terminateDelims_no_ws t hws]
    unfold readCString
    refine takeWhile_append_exact _ t (terminateDelims r) ?_ ?_
    · intro c hc
      have hcs : c ∈ s := by
        rw [hlr]
        exact List.mem_append.mpr (Or.inl (List.mem_append.mpr (Or.inr hc)))
      have : c ≠ nulChar := fun he => hnul (he ▸ hcs)
      simpa using this
    · rcases hr with rfl | ⟨c, r2, rfl, hc⟩
      · exact Or.inl rfl
      · refine Or.inr ⟨nulChar, terminateDelims r2, ?_, by simp⟩
        simp [terminateDelims, hc]

/-- Witness for C6: the kill scenario input from the spec. -/
theorem tokenize_destructive_witness :
    nulChar ∉ "kill 42 -9".toList ∧
    ((∀ t ∈ tokenize "kill 42 -9".toList,
        t ≠ [] ∧ ∀ c ∈ t, isWhitespace c = false) ∧
      (terminateDelims "kill 42 -9".toList).length =
        "kill 42 -9".toList.length ∧
      ∀ t ∈ tokenize "kill 42 -9".toList, t <:+: "kill 42 -9".toList ∧
        ∃ p, p ≤ "kill 42 -9".toList.length ∧
          readCString ((terminateDelims "kill 42 -9".toList).drop p) = t) :=
  ⟨by decide, tokenize_destructive "kill 42 -9".toList (by decide)⟩

end CliCore
